import Mathlib

/-!
Verification of the `env_logger` directive-based log filter and formatter.

Rust strings are modelled by Lean `String`, with all operations (length,
prefix tests, splitting, trimming) acting on the underlying character
sequence `String.data`.  Machine integers (`usize`) are modelled by `Nat`
(no overflow is reachable for the quantities involved: list lengths and
header widths).
-/

namespace EnvLogger

/-- `log::Level` (src dependency): the five record levels, `Error` least
verbose.  `toNat` is the discriminant used by the cross-type comparison
`level <= filter` (Error = 1 .. Trace = 5). -/
inductive Level where
  | error
  | warn
  | info
  | debug
  | trace
deriving DecidableEq, Repr

def Level.toNat : Level → Nat
  | .error => 1
  | .warn => 2
  | .info => 3
  | .debug => 4
  | .trace => 5

/-- `log::LevelFilter`: the six thresholds, `Off` below every real level
(Off = 0 .. Trace = 5). -/
inductive LevelFilter where
  | off
  | error
  | warn
  | info
  | debug
  | trace
deriving DecidableEq, Repr

def LevelFilter.toNat : LevelFilter → Nat
  | .off => 0
  | .error => 1
  | .warn => 2
  | .info => 3
  | .debug => 4
  | .trace => 5

/-- `Directive` from `src/src/filter/mod.rs`: an optional module-name
prefix and a level threshold. -/
structure Directive where
  name : Option String
  level : LevelFilter
deriving DecidableEq, Repr

/-- Byte/char length of a directive name, `None` counted as 0 — the sort
key of `Builder::build` (`a.name.as_ref().map(|a| a.len()).unwrap_or(0)`). -/
def nameLen : Option String → Nat
  | none => 0
  | some s => s.data.length

/-- Rust `str::starts_with` on the character sequences. -/
def strStartsWith (target pre : String) : Bool :=
  pre.data.isPrefixOf target.data

/-- One step of the reverse scan of `enabled` (`src/src/filter/mod.rs`,
lines 230-241): the argument list is the directive vector already
reversed.  A named directive that is not a prefix of the target is
skipped; the first named prefix match or global directive decides via
`level <= directive.level`. -/
def enabledRev (level : Level) (target : String) : List Directive → Bool
  | [] => false
  | d :: rest =>
    match d.name with
    | some n =>
      if strStartsWith target n then decide (level.toNat ≤ d.level.toNat)
      else enabledRev level target rest
    | none => decide (level.toNat ≤ d.level.toNat)

/-- `enabled` from `src/src/filter/mod.rs`: scan the directive vector in
reverse for the first match. -/
def enabled (directives : List Directive) (level : Level) (target : String) : Bool :=
  enabledRev level target directives.reverse

/-- Whether a directive applies to a target (the match arm of `enabled`):
a global directive always applies, a named one applies when its name is a
prefix of the target. -/
def matchesTarget (d : Directive) (target : String) : Bool :=
  match d.name with
  | some n => strStartsWith target n
  | none => true

/-- Modelled from the spec: `crates/env_filter/src/op.rs` is not under
`src/`.  Per the spec (§3 ContentFilter, §6 grammar), the regex-free
backend interprets the pattern as a literal substring and compilation
never fails. -/
structure FilterOp where
  pattern : String
deriving DecidableEq, Repr

def FilterOp.new (spec : String) : Except String FilterOp :=
  .ok ⟨spec⟩

/-- `Builder` from `src/src/filter/mod.rs`: accumulated directives plus
the optional content filter. -/
structure Builder where
  directives : List Directive
  filter : Option FilterOp

/-- `Filter` from `src/src/filter/mod.rs`.  The source names both the
field and the max-level accessor `filter`; Lean cannot hold both names in
one namespace, so the field is `filterOp` here. -/
structure Filter where
  directives : List Directive
  filterOp : Option FilterOp

/-- Stable insertion of a directive into a name-length-sorted list:
`d` goes in front of the first entry of key ≥ its own.  Extensionally
equal to what Rust's stable `sort_by` produces. -/
def insertD (d : Directive) : List Directive → List Directive
  | [] => [d]
  | e :: rest =>
    if nameLen d.name ≤ nameLen e.name then d :: e :: rest
    else e :: insertD d rest

/-- The stable sort by ascending name length performed in
`Builder::build` (`self.directives.sort_by(...)` on the length key). -/
def sortByLen : List Directive → List Directive
  | [] => []
  | d :: rest => insertD d (sortByLen rest)

/-- `Builder::build` (`src/src/filter/mod.rs`, lines 125-146): inject the
default `{None, Error}` directive when none were added, otherwise sort by
ascending name length. -/
def Builder.build (b : Builder) : Filter :=
  if b.directives = [] then
    { directives := [⟨none, LevelFilter.error⟩], filterOp := b.filter }
  else
    { directives := sortByLen b.directives, filterOp := b.filter }

/-- `Filter::filter` (`src/src/filter/mod.rs`, lines 49-54): the maximum
directive threshold, `Off` for an empty vector
(`.iter().map(|d| d.level).max().unwrap_or(LevelFilter::Off)`). -/
def Filter.filter (f : Filter) : LevelFilter :=
  f.directives.foldl (fun m d => if m.toNat ≤ d.level.toNat then d.level else m)
    LevelFilter.off

/- ### Basic lemmas about the scan and the sort -/

theorem enabledRev_cons (l : Level) (t : String) (d : Directive) (rest : List Directive) :
    enabledRev l t (d :: rest) =
      if matchesTarget d t then decide (l.toNat ≤ d.level.toNat)
      else enabledRev l t rest := by
  cases h : d.name with
  | none => simp [enabledRev, matchesTarget, h]
  | some n =>
    simp only [enabledRev, matchesTarget, h]

theorem insertD_perm (d : Directive) (l : List Directive) :
    (insertD d l).Perm (d :: l) := by
  induction l with
  | nil => simp [insertD]
  | cons e rest ih =>
    by_cases h : nameLen d.name ≤ nameLen e.name
    · simp [insertD, h]
    · simp only [insertD, if_neg h]
      exact (ih.cons e).trans (List.Perm.swap d e rest)

theorem sortByLen_perm (l : List Directive) : (sortByLen l).Perm l := by
  induction l with
  | nil => simp [sortByLen]
  | cons d rest ih =>
    exact (insertD_perm d (sortByLen rest)).trans (ih.cons d)

theorem mem_sortByLen {d : Directive} {l : List Directive} :
    d ∈ sortByLen l ↔ d ∈ l :=
  (sortByLen_perm l).mem_iff

theorem insertD_sorted {d : Directive} {l : List Directive}
    (h : l.Pairwise (fun a b => nameLen a.name ≤ nameLen b.name)) :
    (insertD d l).Pairwise (fun a b => nameLen a.name ≤ nameLen b.name) := by
  induction l with
  | nil => simp [insertD]
  | cons e rest ih =>
    rcases List.pairwise_cons.1 h with ⟨he, hrest⟩
    by_cases hc : nameLen d.name ≤ nameLen e.name
    · simp only [insertD, if_pos hc]
      refine List.pairwise_cons.2 ⟨?_, h⟩
      intro x hx
      rcases List.mem_cons.1 hx with hx | hx
      · exact hx ▸ hc
      · exact le_trans hc (he x hx)
    · simp only [insertD, if_neg hc]
      refine List.pairwise_cons.2 ⟨?_, ih hrest⟩
      intro x hx
      rcases List.mem_cons.1 ((insertD_perm d rest).mem_iff.1 hx) with hx | hx
      · exact hx ▸ le_of_not_le hc
      · exact he x hx

theorem sortByLen_sorted (l : List Directive) :
    (sortByLen l).Pairwise (fun a b => nameLen a.name ≤ nameLen b.name) := by
  induction l with
  | nil => simp [sortByLen]
  | cons d rest ih => exact insertD_sorted ih

theorem isPrefixOf_true_iff (l₁ l₂ : List Char) :
    l₁.isPrefixOf l₂ = true ↔ l₁ <+: l₂ := by
  induction l₁ generalizing l₂ with
  | nil => simp
  | cons a as ih =>
    cases l₂ with
    | nil => simp
    | cons b bs =>
      simp only [List.isPrefixOf_cons₂, Bool.and_eq_true, beq_iff_eq,
        List.cons_prefix_cons, ih]

theorem strStartsWith_self (s : String) : strStartsWith s s = true := by
  simp [strStartsWith, isPrefixOf_true_iff]

theorem matchesTarget_length_le {d : Directive} {t : String}
    (h : matchesTarget d t = true) : nameLen d.name ≤ t.data.length := by
  cases hn : d.name with
  | none => simp [nameLen]
  | some n =>
    simp only [matchesTarget, hn, strStartsWith, isPrefixOf_true_iff] at h
    simpa [nameLen] using h.length_le

/-- The key property of the reverse scan: in a descending-by-name-length
list, if `d` matches the target and every matching entry is strictly
shorter than `d` or carries `d`'s threshold, the scan decides with `d`'s
threshold. -/
theorem enabledRev_first_match (l : Level) (t : String) (d : Directive)
    (rs : List Directive)
    (hsorted : rs.Pairwise (fun a b => nameLen b.name ≤ nameLen a.name))
    (hmem : d ∈ rs) (hmatch : matchesTarget d t = true)
    (hmax : ∀ e ∈ rs, matchesTarget e t = true →
      nameLen e.name < nameLen d.name ∨ e.level = d.level) :
    enabledRev l t rs = decide (l.toNat ≤ d.level.toNat) := by
  induction rs with
  | nil => cases hmem
  | cons c rest ih =>
    rcases List.pairwise_cons.1 hsorted with ⟨hc, hrest⟩
    rw [enabledRev_cons]
    by_cases hcm : matchesTarget c t = true
    · rw [if_pos hcm]
      rcases hmax c (List.mem_cons_self c rest) hcm with hlt | hlevel
      · rcases List.mem_cons.1 hmem with rfl | hmem
        · exact absurd hlt (lt_irrefl _)
        · exact absurd (lt_of_lt_of_le hlt (hc d hmem)) (lt_irrefl _)
      · rw [hlevel]
    · rw [if_neg hcm]
      rcases List.mem_cons.1 hmem with rfl | hmem
      · exact absurd hmatch hcm
      · exact ih hrest hmem
          (fun e he hm => hmax e (List.mem_cons_of_mem c he) hm)

/-- If no entry of the list matches the target, the scan fails closed. -/
theorem enabledRev_no_match (l : Level) (t : String) (rs : List Directive)
    (h : ∀ e ∈ rs, matchesTarget e t = false) :
    enabledRev l t rs = false := by
  induction rs with
  | nil => rfl
  | cons c rest ih =>
    rw [enabledRev_cons, h c (List.mem_cons_self c rest)]
    exact ih (fun e he => h e (List.mem_cons_of_mem c he))

theorem level_toNat_pos (l : Level) : 1 ≤ l.toNat := by
  cases l <;> simp [Level.toNat]

/- ### Claims about `enabled` and `Builder::build` -/

/-- C3: with no global directive and no directive whose name prefixes the
target, `enabled` returns `false` at every level. -/
theorem enabled_no_match_false (ds : List Directive) (l : Level) (t : String)
    (hglobal : ∀ d ∈ ds, d.name ≠ none)
    (hpre : ∀ d ∈ ds, ∀ n, d.name = some n → strStartsWith t n = false) :
    enabled ds l t = false := by
  apply enabledRev_no_match
  intro e he
  have he' : e ∈ ds := List.mem_reverse.1 he
  cases hn : e.name with
  | none => exact absurd hn (hglobal e he')
  | some n => simp [matchesTarget, hn, hpre e he' n hn]

theorem enabled_no_match_false_witness :
    ((∀ d ∈ [Directive.mk (some "crate2") LevelFilter.info], d.name ≠ none) ∧
      ∀ d ∈ [Directive.mk (some "crate2") LevelFilter.info], ∀ n,
        d.name = some n → strStartsWith "crate3" n = false) ∧
    enabled [Directive.mk (some "crate2") LevelFilter.info] Level.warn "crate3" = false :=
  ⟨⟨by decide, by decide⟩,
    enabled_no_match_false _ Level.warn "crate3" (by decide) (by decide)⟩

/-- C4: `Builder::build` always yields a non-empty directive vector sorted
by ascending name length, and injects `{None, Error}` when the builder is
empty. -/
theorem build_nonempty_sorted (bd : List Directive) (fo : Option FilterOp) :
    ((Builder.mk bd fo).build.directives ≠ [] ∧
      (Builder.mk bd fo).build.directives.Pairwise
        (fun a b => nameLen a.name ≤ nameLen b.name)) ∧
    (Builder.mk [] fo).build.directives = [⟨none, LevelFilter.error⟩] := by
  refine ⟨?_, by simp [Builder.build]⟩
  by_cases h : bd = []
  · subst h
    simp [Builder.build]
  · constructor
    · simp only [Builder.build, if_neg h]
      intro hempty
      have hperm := sortByLen_perm bd
      rw [hempty] at hperm
      exact h hperm.nil_eq.symm
    · simp only [Builder.build, if_neg h]
      exact sortByLen_sorted bd

/-- C1 (amended): in a built filter, a query at target `B.name` is decided
by `B`'s threshold — independently of every other directive, in particular
of a directive `A` whose name is a proper prefix of `B.name` — provided no
other directive carries the very name `B.name` with another threshold.
The list `bd` ranges over all insertion orders. -/
theorem build_longest_match_wins (bd : List Directive) (A B : Directive)
    (a b : String) (l : Level) (fo : Option FilterOp)
    (_hA : A ∈ bd) (hB : B ∈ bd)
    (_hAname : A.name = some a) (hBname : B.name = some b)
    (_hpre : a.data <+: b.data) (hlen : a.data.length < b.data.length)
    (huniq : ∀ e ∈ bd, ∀ n, e.name = some n → n.data = b.data →
      e.level = B.level) :
    enabled (Builder.mk bd fo).build.directives l b =
      decide (l.toNat ≤ B.level.toNat) := by
  have hbd : bd ≠ [] := fun h => by simp [h] at hB
  have hdirs : (Builder.mk bd fo).build.directives = sortByLen bd := by
    simp only [Builder.build, if_neg hbd]
  rw [hdirs, enabled]
  apply enabledRev_first_match l b B
  · exact List.pairwise_reverse.2 (sortByLen_sorted bd)
  · exact List.mem_reverse.2 (mem_sortByLen.2 hB)
  · simp [matchesTarget, hBname, strStartsWith_self]
  · intro e he hm
    have he' : e ∈ bd := mem_sortByLen.1 (List.mem_reverse.1 he)
    cases hn : e.name with
    | none =>
      left
      simp only [nameLen, hBname]
      exact lt_of_le_of_lt (Nat.zero_le _) hlen
    | some n =>
      simp only [matchesTarget, hn, strStartsWith, isPrefixOf_true_iff] at hm
      rcases lt_or_eq_of_le hm.length_le with hlt | heq
      · left
        simpa [nameLen, hn, hBname] using hlt
      · right
        exact huniq e he' n hn (hm.eq_of_length heq)

theorem build_longest_match_wins_witness :
    ((⟨some "a", LevelFilter.info⟩ : Directive) ∈
        [(⟨some "ab", LevelFilter.warn⟩ : Directive), ⟨some "a", LevelFilter.info⟩] ∧
      (⟨some "ab", LevelFilter.warn⟩ : Directive) ∈
        [(⟨some "ab", LevelFilter.warn⟩ : Directive), ⟨some "a", LevelFilter.info⟩] ∧
      (Directive.mk (some "a") LevelFilter.info).name = some "a" ∧
      (Directive.mk (some "ab") LevelFilter.warn).name = some "ab" ∧
      "a".data <+: "ab".data ∧
      "a".data.length < "ab".data.length ∧
      (∀ e ∈ [(⟨some "ab", LevelFilter.warn⟩ : Directive), ⟨some "a", LevelFilter.info⟩],
        ∀ n, e.name = some n → n.data = "ab".data →
          e.level = (Directive.mk (some "ab") LevelFilter.warn).level)) ∧
    enabled (Builder.mk
        [(⟨some "ab", LevelFilter.warn⟩ : Directive), ⟨some "a", LevelFilter.info⟩]
        none).build.directives Level.error "ab" =
      decide (Level.error.toNat ≤ (Directive.mk (some "ab") LevelFilter.warn).level.toNat) :=
  ⟨⟨by decide, by decide, by decide, by decide, ⟨['b'], by decide⟩, by decide, by decide⟩,
    build_longest_match_wins
      [(⟨some "ab", LevelFilter.warn⟩ : Directive), ⟨some "a", LevelFilter.info⟩]
      ⟨some "a", LevelFilter.info⟩ ⟨some "ab", LevelFilter.warn⟩
      "a" "ab" Level.error none
      (by decide) (by decide) (by decide) (by decide) ⟨['b'], by decide⟩
      (by decide) (by decide)⟩

/-- C1 counterexample: the claim as stated fails when another directive
shares `B`'s name.  With `A = (a, Info)`, `B = (ab, Warn)` and a third
directive `(ab, Debug)` added after `B`, the query `(Debug, "ab")` is
enabled although `B`'s threshold `Warn` rejects `Debug`: the stable sort
keeps the later equal-length directive closer to the end, so the reverse
scan decides with its threshold, not `B`'s. -/
theorem build_longest_match_counterexample :
    enabled (Builder.mk
        [(⟨some "a", LevelFilter.info⟩ : Directive),
          ⟨some "ab", LevelFilter.warn⟩, ⟨some "ab", LevelFilter.debug⟩]
        none).build.directives Level.debug "ab" = true ∧
    decide (Level.debug.toNat ≤ LevelFilter.warn.toNat) = false := by
  constructor
  · decide
  · decide

/-- C2 (amended): an `Off` directive whose name prefixes the target
disables every level, provided every matching directive of equal or
longer name also has threshold `Off`. -/
theorem build_off_disables_all (bd : List Directive) (d : Directive)
    (p target : String) (l : Level) (fo : Option FilterOp)
    (hmem : d ∈ bd) (hname : d.name = some p)
    (hoff : d.level = LevelFilter.off)
    (hpre : strStartsWith target p = true)
    (hmax : ∀ e ∈ bd, matchesTarget e target = true →
      nameLen e.name < nameLen d.name ∨ e.level = LevelFilter.off) :
    enabled (Builder.mk bd fo).build.directives l target = false := by
  have hbd : bd ≠ [] := fun h => by simp [h] at hmem
  have hdirs : (Builder.mk bd fo).build.directives = sortByLen bd := by
    simp only [Builder.build, if_neg hbd]
  rw [hdirs, enabled]
  have hfirst := enabledRev_first_match l target d ((sortByLen bd).reverse)
    (List.pairwise_reverse.2 (sortByLen_sorted bd))
    (List.mem_reverse.2 (mem_sortByLen.2 hmem))
    (by simp [matchesTarget, hname, hpre])
    (fun e he hm => by
      rcases hmax e (mem_sortByLen.1 (List.mem_reverse.1 he)) hm with hlt | hoff'
      · exact Or.inl hlt
      · exact Or.inr (hoff'.trans hoff.symm))
  rw [hfirst, hoff]
  simp only [LevelFilter.toNat, decide_eq_false_iff_not]
  exact fun hle => absurd (le_trans (level_toNat_pos l) hle) (by simp)

theorem build_off_disables_all_witness :
    ((⟨some "crate1::mod1", LevelFilter.off⟩ : Directive) ∈
        [(⟨none, LevelFilter.info⟩ : Directive), ⟨some "crate1::mod1", LevelFilter.off⟩] ∧
      (Directive.mk (some "crate1::mod1") LevelFilter.off).name = some "crate1::mod1" ∧
      (Directive.mk (some "crate1::mod1") LevelFilter.off).level = LevelFilter.off ∧
      strStartsWith "crate1::mod1::x" "crate1::mod1" = true ∧
      (∀ e ∈ [(⟨none, LevelFilter.info⟩ : Directive), ⟨some "crate1::mod1", LevelFilter.off⟩],
        matchesTarget e "crate1::mod1::x" = true →
          nameLen e.name < nameLen (Directive.mk (some "crate1::mod1") LevelFilter.off).name ∨
            e.level = LevelFilter.off)) ∧
    enabled (Builder.mk
        [(⟨none, LevelFilter.info⟩ : Directive), ⟨some "crate1::mod1", LevelFilter.off⟩]
        none).build.directives Level.error "crate1::mod1::x" = false :=
  ⟨⟨by decide, by decide, by decide, by decide, by decide⟩,
    build_off_disables_all
      [(⟨none, LevelFilter.info⟩ : Directive), ⟨some "crate1::mod1", LevelFilter.off⟩]
      ⟨some "crate1::mod1", LevelFilter.off⟩
      "crate1::mod1" "crate1::mod1::x" Level.error none
      (by decide) (by decide) (by decide) (by decide) (by decide)⟩

/-- C2 counterexample: the claim as stated fails for a set with a second
directive of the same name.  `[("a", Off), ("a", Warn)]` contains an `Off`
directive whose name `"a"` prefixes the target `"a"` and no longer-named
matching directive exists, yet `enabled(Error, "a")` is `true`: the
stable sort leaves the `Warn` duplicate behind the `Off` one, and the
reverse scan hits it first. -/
theorem build_off_shadowed_counterexample :
    ((⟨some "a", LevelFilter.off⟩ : Directive) ∈
        [(⟨some "a", LevelFilter.off⟩ : Directive), ⟨some "a", LevelFilter.warn⟩] ∧
      strStartsWith "a" "a" = true ∧
      (∀ e ∈ [(⟨some "a", LevelFilter.off⟩ : Directive), ⟨some "a", LevelFilter.warn⟩],
        nameLen e.name ≤ nameLen (some "a"))) ∧
    enabled (Builder.mk
        [(⟨some "a", LevelFilter.off⟩ : Directive), ⟨some "a", LevelFilter.warn⟩]
        none).build.directives Level.error "a" = true := by
  refine ⟨⟨by decide, by decide, by decide⟩, ?_⟩
  decide

/- ### C10: `Filter::filter` is the maximum threshold -/

theorem foldl_maxLevel_le (ds : List Directive) (m : LevelFilter) :
    m.toNat ≤ (ds.foldl
      (fun m d => if m.toNat ≤ d.level.toNat then d.level else m) m).toNat := by
  induction ds generalizing m with
  | nil => simp
  | cons e rest ih =>
    refine le_trans ?_ (ih (if m.toNat ≤ e.level.toNat then e.level else m))
    by_cases h : m.toNat ≤ e.level.toNat
    · simp [h]
    · simp [h]

theorem foldl_maxLevel_mem_le (ds : List Directive) (m : LevelFilter) :
    ∀ d ∈ ds, d.level.toNat ≤ (ds.foldl
      (fun m d => if m.toNat ≤ d.level.toNat then d.level else m) m).toNat := by
  induction ds generalizing m with
  | nil => simp
  | cons e rest ih =>
    intro d hd
    rcases List.mem_cons.1 hd with rfl | hd
    · refine le_trans ?_ (foldl_maxLevel_le rest _)
      by_cases h : m.toNat ≤ d.level.toNat
      · simp [h]
      · simpa [h] using le_of_not_le h
    · exact ih _ d hd

theorem foldl_maxLevel_attained (ds : List Directive) (m : LevelFilter) :
    ds.foldl (fun m d => if m.toNat ≤ d.level.toNat then d.level else m) m = m ∨
      ∃ d ∈ ds, ds.foldl
        (fun m d => if m.toNat ≤ d.level.toNat then d.level else m) m = d.level := by
  induction ds generalizing m with
  | nil => exact Or.inl rfl
  | cons e rest ih =>
    rcases ih (if m.toNat ≤ e.level.toNat then e.level else m) with h | ⟨d, hd, h⟩
    · by_cases hc : m.toNat ≤ e.level.toNat
      · refine Or.inr ⟨e, List.mem_cons_self e rest, ?_⟩
        simpa [List.foldl_cons, hc] using h
      · refine Or.inl ?_
        simpa [List.foldl_cons, hc] using h
    · exact Or.inr ⟨d, List.mem_cons_of_mem e hd, by simpa [List.foldl_cons] using h⟩

/-- C10: `Filter::filter` returns the maximum threshold over the
directives (`Off` for an empty vector); a built filter with no explicit
directives reports `Error`, and a single module-specific directive at
level `L` reports exactly `L` whatever its name. -/
theorem filter_reports_max (f : Filter) (fo : Option FilterOp)
    (n : String) (L : LevelFilter) :
    (∀ d ∈ f.directives, d.level.toNat ≤ f.filter.toNat) ∧
    (f.filter = LevelFilter.off ∨ ∃ d ∈ f.directives, f.filter = d.level) ∧
    (Filter.mk [] fo).filter = LevelFilter.off ∧
    (Builder.mk [] fo).build.filter = LevelFilter.error ∧
    (Builder.mk [⟨some n, L⟩] fo).build.filter = L := by
  refine ⟨foldl_maxLevel_mem_le f.directives LevelFilter.off,
    foldl_maxLevel_attained f.directives LevelFilter.off, rfl, ?_, ?_⟩
  · simp [Builder.build, Filter.filter, LevelFilter.toNat]
  · simp [Builder.build, sortByLen, insertD, Filter.filter, LevelFilter.toNat]

/- ### The `env_filter` specification parser (`crates/env_filter/src/parser.rs`) -/

/-- Prepend a character to the first piece of a split result. -/
def consHead (c : Char) : List (List Char) → List (List Char)
  | [] => [[c]]
  | p :: ps => (c :: p) :: ps

/-- Rust `str::split(sep)` for a one-character separator: always returns
at least one (possibly empty) piece. -/
def splitChar (sep : Char) : List Char → List (List Char)
  | [] => [[]]
  | c :: rest =>
    if c = sep then [] :: splitChar sep rest
    else consHead c (splitChar sep rest)

/-- Rust `str::trim` on the character sequence. -/
def trimL (s : List Char) : List Char :=
  ((s.dropWhile Char.isWhitespace).reverse.dropWhile Char.isWhitespace).reverse

/-- ASCII lowercasing of one character (`u8::to_ascii_lowercase`). -/
def asciiLower (c : Char) : Char :=
  if 'A' ≤ c ∧ c ≤ 'Z' then Char.ofNat (c.toNat + 32) else c

/-- Rust `str::eq_ignore_ascii_case`. -/
def eqIgnoreAsciiCase (s t : List Char) : Bool :=
  decide (s.map asciiLower = t.map asciiLower)

/-- Numeric value of a digit string. -/
def digitsVal (s : List Char) : Nat :=
  s.foldl (fun n c => n * 10 + (c.toNat - 48)) 0

/-- Modelled from the spec: `LevelFilter::from_str` lives in the external
`log` crate, not in this repository; per the spec (§4.1, §6 grammar) a
level is `case-insensitive one of {off,error,warn,info,debug,trace}` or a
`non-negative integer 0..5`. -/
def levelParse (s : List Char) : Option LevelFilter :=
  if s ≠ [] ∧ s.all Char.isDigit = true then
    match digitsVal s with
    | 0 => some .off
    | 1 => some .error
    | 2 => some .warn
    | 3 => some .info
    | 4 => some .debug
    | 5 => some .trace
    | _ => none
  else if eqIgnoreAsciiCase s "off".data then some .off
  else if eqIgnoreAsciiCase s "error".data then some .error
  else if eqIgnoreAsciiCase s "warn".data then some .warn
  else if eqIgnoreAsciiCase s "info".data then some .info
  else if eqIgnoreAsciiCase s "debug".data then some .debug
  else if eqIgnoreAsciiCase s "trace".data then some .trace
  else none

/-- `ParseResult` from `crates/env_filter/src/parser.rs`. -/
structure ParseResult where
  directives : List Directive
  filter : Option FilterOp
  errors : List String
deriving DecidableEq, Repr

def ParseResult.addDirective (r : ParseResult) (d : Directive) : ParseResult :=
  { r with directives := r.directives ++ [d] }

def ParseResult.addError (r : ParseResult) (msg : String) : ParseResult :=
  { r with errors := r.errors ++ [msg] }

def invalidSpecMsg (s : String) : String :=
  "invalid logging spec \x27" ++ s ++ "\x27"

def tooManySlashesMsg (spec : String) : String :=
  "invalid logging spec \x27" ++ spec ++ "\x27 (too many \x27/\x27s)"

/-- The body of the per-piece loop of `parse_spec`
(`crates/env_filter/src/parser.rs`, lines 40-74); `s` is the trimmed
piece.  The second `=`-part is trimmed before inspection, the first is
not. -/
def processPiece (acc : ParseResult) (s : List Char) : ParseResult :=
  if s = [] then acc
  else
    match splitChar '=' s with
    | [] => acc
    | [part0] =>
      match levelParse part0 with
      | some num => acc.addDirective ⟨none, num⟩
      | none => acc.addDirective ⟨some (String.mk part0), LevelFilter.trace⟩
    | [part0, part1] =>
      if trimL part1 = [] then acc.addDirective ⟨some (String.mk part0), LevelFilter.trace⟩
      else
        match levelParse (trimL part1) with
        | some num => acc.addDirective ⟨some (String.mk part0), num⟩
        | none => acc.addError (invalidSpecMsg (String.mk (trimL part1)))
    | _ => acc.addError (invalidSpecMsg (String.mk s))

/-- The loop of `parse_spec` over comma-separated pieces, each trimmed
(`m.split(',').map(|ss| ss.trim())`). -/
def processPieces : ParseResult → List (List Char) → ParseResult
  | acc, [] => acc
  | acc, p :: ps => processPieces (processPiece acc (trimL p)) ps

/-- `parse_spec` from `crates/env_filter/src/parser.rs`: split on `/`
(more than two segments is a fatal error), process the comma-separated
module list, then compile the optional filter segment. -/
def parseSpec (spec : String) : ParseResult :=
  match splitChar '/' spec.data with
  | [] => ⟨[], none, []⟩
  | mods :: rest =>
    if 2 ≤ rest.length then ⟨[], none, [tooManySlashesMsg spec]⟩
    else
      let r0 := processPieces ⟨[], none, []⟩ (splitChar ',' mods)
      match rest.head? with
      | none => r0
      | some f =>
        match FilterOp.new (String.mk f) with
        | .ok op => { r0 with filter := some op }
        | .error e => { r0 with errors := r0.errors ++ ["invalid regex filter - " ++ e] }

/-- The module-list segment of a specification string. -/
def modsOf (spec : String) : List Char :=
  (splitChar '/' spec.data).headI

/-- The optional content-filter segment of a specification string. -/
def filterSegOf (spec : String) : Option (List Char) :=
  (splitChar '/' spec.data).tail.head?

/-- The trimmed comma-separated pieces of the module list. -/
def piecesOf (spec : String) : List (List Char) :=
  (splitChar ',' (modsOf spec)).map trimL

/-- Follows the spec's words (§4.1): the directive one trimmed piece
contributes, if any. -/
def pieceDirective (s : List Char) : Option Directive :=
  if s = [] then none
  else
    match splitChar '=' s with
    | [] => none
    | [part0] =>
      match levelParse part0 with
      | some num => some ⟨none, num⟩
      | none => some ⟨some (String.mk part0), LevelFilter.trace⟩
    | [part0, part1] =>
      if trimL part1 = [] then some ⟨some (String.mk part0), LevelFilter.trace⟩
      else
        match levelParse (trimL part1) with
        | some num => some ⟨some (String.mk part0), num⟩
        | none => none
    | _ => none

/-- Follows the spec's words (§4.1): the error one trimmed piece
contributes, if any. -/
def pieceError (s : List Char) : Option String :=
  if s = [] then none
  else
    match splitChar '=' s with
    | [] => none
    | [_] => none
    | [_, part1] =>
      if trimL part1 = [] then none
      else
        match levelParse (trimL part1) with
        | some _ => none
        | none => some (invalidSpecMsg (String.mk (trimL part1)))
    | _ => some (invalidSpecMsg (String.mk s))

theorem processPiece_spec (acc : ParseResult) (s : List Char) :
    processPiece acc s =
      ⟨acc.directives ++ (pieceDirective s).toList, acc.filter,
        acc.errors ++ (pieceError s).toList⟩ := by
  by_cases hs : s = []
  · simp [processPiece, pieceDirective, pieceError, hs]
  · rcases e : splitChar '=' s with _ | ⟨p0, _ | ⟨p1, _ | ⟨p2, rest⟩⟩⟩
    · simp [processPiece, pieceDirective, pieceError, hs, e]
    · rcases hl : levelParse p0 with _ | L <;>
        simp [processPiece, pieceDirective, pieceError, hs, e, hl,
          ParseResult.addDirective]
    · by_cases ht : trimL p1 = []
      · simp [processPiece, pieceDirective, pieceError, hs, e, ht,
          ParseResult.addDirective]
      · rcases hl : levelParse (trimL p1) with _ | L <;>
          simp [processPiece, pieceDirective, pieceError, hs, e, ht, hl,
            ParseResult.addDirective, ParseResult.addError]
    · simp [processPiece, pieceDirective, pieceError, hs, e, ParseResult.addError]

theorem processPieces_spec (acc : ParseResult) (ps : List (List Char)) :
    processPieces acc ps =
      ⟨acc.directives ++ (ps.map trimL).filterMap pieceDirective, acc.filter,
        acc.errors ++ (ps.map trimL).filterMap pieceError⟩ := by
  induction ps generalizing acc with
  | nil => simp [processPieces]
  | cons p ps ih =>
    rw [processPieces, ih, processPiece_spec]
    rcases hd : pieceDirective (trimL p) with _ | d <;>
      rcases he : pieceError (trimL p) with _ | msg <;>
        simp [hd, he, List.filterMap_cons]

theorem splitChar_ne_nil (sep : Char) (l : List Char) : splitChar sep l ≠ [] := by
  cases l with
  | nil => simp [splitChar]
  | cons c rest =>
    by_cases h : c = sep
    · simp [splitChar, h]
    · simp only [splitChar, if_neg h]
      cases splitChar sep rest <;> simp [consHead]

/-- Decomposition of `parse_spec` for specs with at most one `/`:
directives and errors are exactly the per-piece contributions in piece
order, and the filter segment is compiled whenever present. -/
theorem parseSpec_decomposition (spec : String)
    (hs : (splitChar '/' spec.data).length ≤ 2) :
    (parseSpec spec).directives = (piecesOf spec).filterMap pieceDirective ∧
    (parseSpec spec).errors = (piecesOf spec).filterMap pieceError ∧
    (parseSpec spec).filter = (filterSegOf spec).map (fun f => ⟨String.mk f⟩) := by
  rcases hp : splitChar '/' spec.data with _ | ⟨m, _ | ⟨f, rest2⟩⟩
  · exact absurd hp (splitChar_ne_nil '/' spec.data)
  · have hm : modsOf spec = m := by simp [modsOf, hp]
    have hf : filterSegOf spec = none := by simp [filterSegOf, hp]
    simp only [parseSpec, hp, List.length_cons, List.length_nil, piecesOf, hm, hf,
      List.head?_nil, Option.map_none]
    rw [if_neg (by simp), processPieces_spec]
    simp
  · have hrest2 : rest2 = [] := by
      rw [hp] at hs
      simp only [List.length_cons] at hs
      exact List.length_eq_zero.1 (by omega)
    subst hrest2
    have hm : modsOf spec = m := by simp [modsOf, hp]
    have hf : filterSegOf spec = some f := by simp [filterSegOf, hp]
    simp only [parseSpec, hp, piecesOf, hm, hf]
    rw [if_neg (by simp), processPieces_spec]
    simp [FilterOp.new]

theorem splitChar_of_not_mem {sep : Char} {l : List Char} (h : sep ∉ l) :
    splitChar sep l = [l] := by
  induction l with
  | nil => rfl
  | cons c rest ih =>
    have hc : ¬c = sep := fun hc => h (hc ▸ List.mem_cons_self c rest)
    rw [splitChar, if_neg hc, ih (fun hm => h (List.mem_cons_of_mem c hm))]
    rfl

/-- C5: for a spec with at most one `/`, an invalid piece (unparseable
level or more than one `=`) contributes exactly its own error and is the
only piece skipped: the directives are the per-piece contributions of all
valid pieces in order, the errors are the per-piece error messages in
order, and the filter segment is still compiled. -/
theorem parse_spec_error_locality (spec : String)
    (hs : (splitChar '/' spec.data).length ≤ 2) :
    (parseSpec spec).directives = (piecesOf spec).filterMap pieceDirective ∧
    (parseSpec spec).errors = (piecesOf spec).filterMap pieceError ∧
    (parseSpec spec).filter = (filterSegOf spec).map (fun f => ⟨String.mk f⟩) :=
  parseSpec_decomposition spec hs

theorem parse_spec_error_locality_witness :
    ((splitChar '/' "crate1::mod1=warn=info,crate2=debug/abc".data).length ≤ 2) ∧
    ((parseSpec "crate1::mod1=warn=info,crate2=debug/abc").directives =
        (piecesOf "crate1::mod1=warn=info,crate2=debug/abc").filterMap pieceDirective ∧
      (parseSpec "crate1::mod1=warn=info,crate2=debug/abc").errors =
        (piecesOf "crate1::mod1=warn=info,crate2=debug/abc").filterMap pieceError ∧
      (parseSpec "crate1::mod1=warn=info,crate2=debug/abc").filter =
        (filterSegOf "crate1::mod1=warn=info,crate2=debug/abc").map
          (fun f => ⟨String.mk f⟩)) :=
  ⟨by decide, parse_spec_error_locality "crate1::mod1=warn=info,crate2=debug/abc"
    (by decide)⟩

/-- C6: for every spec with at most one `/`, the output directives are
the per-piece contributions in left-to-right piece order, where every
non-empty trimmed piece containing no `=` contributes a global directive
`{None, L}` when it parses as a level `L` (by number 0..5 or
case-insensitive name, per `levelParse`) and a module directive at the
maximal threshold otherwise — also in mixed specs whose other pieces
carry `=`. -/
theorem parse_spec_bare_pieces (spec : String)
    (hs : (splitChar '/' spec.data).length ≤ 2) :
    (parseSpec spec).directives = (piecesOf spec).filterMap (fun p =>
      if '=' ∈ p then pieceDirective p
      else if p = [] then none
      else
        match levelParse p with
        | some L => some ⟨none, L⟩
        | none => some ⟨some (String.mk p), LevelFilter.trace⟩) := by
  rw [(parseSpec_decomposition spec hs).1]
  apply List.filterMap_congr
  intro p hp
  by_cases hmem : '=' ∈ p
  · rw [if_pos hmem]
  · rw [if_neg hmem]
    by_cases hpe : p = []
    · simp [pieceDirective, hpe]
    · rw [pieceDirective, if_neg hpe, splitChar_of_not_mem hmem]
      rw [if_neg hpe]

theorem parse_spec_bare_pieces_witness :
    ((splitChar '/' "warn,crate2=debug".data).length ≤ 2) ∧
    (parseSpec "warn,crate2=debug").directives =
      (piecesOf "warn,crate2=debug").filterMap (fun p =>
        if '=' ∈ p then pieceDirective p
        else if p = [] then none
        else
          match levelParse p with
          | some L => some ⟨none, L⟩
          | none => some ⟨some (String.mk p), LevelFilter.trace⟩) :=
  ⟨by decide, parse_spec_bare_pieces "warn,crate2=debug" (by decide)⟩

/- ### The default formatter (`src/src/fmt/mod.rs`, `DefaultFormat`) -/

/-- `Indent` from `src/src/fmt/mod.rs`. -/
inductive Indent where
  | spaces (n : Nat)
  | auto
  | repeatHeader
  | none
deriving DecidableEq, Repr

/-- The configuration part of `DefaultFormat`.  The two timestamp texts
stand for the external clock's `Display` output (coarse and precise); the
source caches them per record, so within one record the same text is
reused. -/
structure FmtConfig where
  timestamp : Bool
  module_path : Bool
  level : Bool
  timestamp_nanos : Bool
  indent : Indent
  tsText : List Char
  tsPreciseText : List Char

/-- The fields of `log::Record` consumed by `DefaultFormat`. -/
structure LogRecord where
  level : Level
  module_path : Option String
  args : String

/-- The mutable part of `DefaultFormat`: the output buffer and
`written_header_count`. -/
structure FmtState where
  buf : List Char
  count : Nat
deriving DecidableEq, Repr

/-- `Display` of `log::Level` under the `{:<5}` padding used by
`write_level`. -/
def levelPad5 : Level → List Char
  | .error => "ERROR".data
  | .warn => "WARN ".data
  | .info => "INFO ".data
  | .debug => "DEBUG".data
  | .trace => "TRACE".data

/-- `DefaultFormat::write_header_value`: an opening bracket before the
first header field, a space before later ones, always bumping the width
counter by one for that separator. -/
def write_header_value (st : FmtState) (v : List Char) : FmtState :=
  if st.count = 0 then { buf := st.buf ++ '[' :: v, count := st.count + 1 }
  else { buf := st.buf ++ ' ' :: v, count := st.count + 1 }

/-- `DefaultFormat::write_timestamp` (humantime enabled): writes the
cached timestamp text and bumps the counter by the nominal field width
(30 for nanosecond precision, 20 otherwise). -/
def write_timestamp (cfg : FmtConfig) (st : FmtState) : FmtState :=
  if cfg.timestamp then
    if cfg.timestamp_nanos then
      { write_header_value st cfg.tsPreciseText with
        count := (write_header_value st cfg.tsPreciseText).count + 30 }
    else
      { write_header_value st cfg.tsText with
        count := (write_header_value st cfg.tsText).count + 20 }
  else st

/-- `DefaultFormat::write_level`: the level padded to five characters,
counter bumped by five. -/
def write_level (cfg : FmtConfig) (r : LogRecord) (st : FmtState) : FmtState :=
  if cfg.level then
    { write_header_value st (levelPad5 r.level) with
      count := (write_header_value st (levelPad5 r.level)).count + 5 }
  else st

/-- `DefaultFormat::write_module_path`: the record's module path if
present, counter bumped by its length. -/
def write_module_path (cfg : FmtConfig) (r : LogRecord) (st : FmtState) : FmtState :=
  if cfg.module_path then
    match r.module_path with
    | some mp =>
      { write_header_value st mp.data with
        count := (write_header_value st mp.data).count + mp.data.length }
    | none => st
  else st

/-- `DefaultFormat::finish_header`: closing bracket and trailing space
when at least one field was written. -/
def finish_header (st : FmtState) : FmtState :=
  if 0 < st.count then { buf := st.buf ++ [']', ' '], count := st.count + 2 }
  else st

/-- `DefaultFormat::write_header`: reset the width counter, then
timestamp, level, module path, closing. -/
def write_header (cfg : FmtConfig) (r : LogRecord) (st : FmtState) : FmtState :=
  finish_header (write_module_path cfg r (write_level cfg r
    (write_timestamp cfg { st with count := 0 })))

/-- The continuation-line prefix of `IndentWrapper::write`: `count`
spaces, the `|` glyph and a space for the fixed strategies, a fresh
header for `RepeatHeader` (`indent_count = None`). -/
def writeLinePrefix (cfg : FmtConfig) (r : LogRecord) (ic : Option Nat)
    (st : FmtState) : FmtState :=
  match ic with
  | some n => { st with buf := st.buf ++ List.replicate n ' ' ++ ['|', ' '] }
  | none => write_header cfg r st

/-- The continuation chunks of `IndentWrapper::write` (all chunks after
the first): newline, line prefix, chunk. -/
def writeChunksRest (cfg : FmtConfig) (r : LogRecord) (ic : Option Nat) :
    FmtState → List (List Char) → FmtState
  | st, [] => st
  | st, c :: cs =>
    writeChunksRest cfg r ic
      { writeLinePrefix cfg r ic { st with buf := st.buf ++ ['\n'] } with
        buf := (writeLinePrefix cfg r ic { st with buf := st.buf ++ ['\n'] }).buf ++ c }
      cs

/-- The chunk loop of `IndentWrapper::write`: the first chunk verbatim,
the rest behind a newline and the line prefix. -/
def writeChunks (cfg : FmtConfig) (r : LogRecord) (ic : Option Nat)
    (st : FmtState) : List (List Char) → FmtState
  | [] => st
  | c :: cs => writeChunksRest cfg r ic { st with buf := st.buf ++ c } cs

/-- `DefaultFormat::write_args` (`src/src/fmt/mod.rs`, lines 335-403):
verbatim plus newline for `Indent::None`; otherwise split the message on
newlines, compute the indent count once (`Auto` uses
`max(0, written_header_count - 2)`), rewrite each embedded newline, and
terminate with a final newline. -/
def write_args (cfg : FmtConfig) (r : LogRecord) (st : FmtState) : FmtState :=
  match cfg.indent with
  | Indent.none => { st with buf := st.buf ++ r.args.data ++ ['\n'] }
  | _ =>
    let ic : Option Nat :=
      match cfg.indent with
      | Indent.spaces n => some n
      | Indent.auto => some (if st.count < 2 then 0 else st.count - 2)
      | _ => none
    { writeChunks cfg r ic st (splitChar '\n' r.args.data) with
      buf := (writeChunks cfg r ic st (splitChar '\n' r.args.data)).buf ++ ['\n'] }

/-- `DefaultFormat::write`: header then body, starting from an empty
buffer; the produced byte sequence. -/
def writeRecord (cfg : FmtConfig) (r : LogRecord) : List Char :=
  (write_args cfg r (write_header cfg r ⟨[], 0⟩)).buf

/-- Number of newline characters at the end of a buffer. -/
def trailingNewlines (l : List Char) : Nat :=
  (l.reverse.takeWhile (fun c => decide (c = '\n'))).length

theorem trailingNewlines_concat_newline (xs : List Char) :
    trailingNewlines (xs ++ ['\n']) = trailingNewlines xs + 1 := by
  simp [trailingNewlines, List.takeWhile_cons]

theorem trailingNewlines_concat_other (xs : List Char) (c : Char) (h : ¬c = '\n') :
    trailingNewlines (xs ++ [c]) = 0 := by
  simp [trailingNewlines, List.takeWhile_cons, h]

theorem shape_trans {st1 st2 st3 : FmtState}
    (h12 : st2 = st1 ∨ (1 ≤ st2.count ∧ ∃ ys, st2.buf = st1.buf ++ ys))
    (h23 : st3 = st2 ∨ (1 ≤ st3.count ∧ ∃ ys, st3.buf = st2.buf ++ ys)) :
    st3 = st1 ∨ (1 ≤ st3.count ∧ ∃ ys, st3.buf = st1.buf ++ ys) := by
  rcases h12 with rfl | ⟨hc2, ys2, hb2⟩
  · exact h23
  · rcases h23 with rfl | ⟨hc3, ys3, hb3⟩
    · exact Or.inr ⟨hc2, ys2, hb2⟩
    · exact Or.inr ⟨hc3, ys2 ++ ys3, by rw [hb3, hb2, List.append_assoc]⟩

theorem write_header_value_shape (st : FmtState) (v : List Char) :
    1 ≤ (write_header_value st v).count ∧
      ∃ ys, (write_header_value st v).buf = st.buf ++ ys := by
  by_cases h : st.count = 0 <;>
    simp [write_header_value, h]

theorem write_timestamp_shape (cfg : FmtConfig) (st : FmtState) :
    write_timestamp cfg st = st ∨
      (1 ≤ (write_timestamp cfg st).count ∧
        ∃ ys, (write_timestamp cfg st).buf = st.buf ++ ys) := by
  by_cases h : cfg.timestamp
  · right
    by_cases hn : cfg.timestamp_nanos
    · rcases write_header_value_shape st cfg.tsPreciseText with ⟨hc, ys, hb⟩
      refine ⟨?_, ys, ?_⟩
      · simp only [write_timestamp, if_pos h, if_pos hn]
        omega
      · simp only [write_timestamp, if_pos h, if_pos hn]
        exact hb
    · rcases write_header_value_shape st cfg.tsText with ⟨hc, ys, hb⟩
      refine ⟨?_, ys, ?_⟩
      · simp only [write_timestamp, if_pos h, if_neg hn]
        omega
      · simp only [write_timestamp, if_pos h, if_neg hn]
        exact hb
  · left
    simp [write_timestamp, h]

theorem write_level_shape (cfg : FmtConfig) (r : LogRecord) (st : FmtState) :
    write_level cfg r st = st ∨
      (1 ≤ (write_level cfg r st).count ∧
        ∃ ys, (write_level cfg r st).buf = st.buf ++ ys) := by
  by_cases h : cfg.level
  · right
    rcases write_header_value_shape st (levelPad5 r.level) with ⟨hc, ys, hb⟩
    refine ⟨?_, ys, ?_⟩
    · simp only [write_level, if_pos h]
      omega
    · simp only [write_level, if_pos h]
      exact hb
  · left
    simp [write_level, h]

theorem write_module_path_shape (cfg : FmtConfig) (r : LogRecord) (st : FmtState) :
    write_module_path cfg r st = st ∨
      (1 ≤ (write_module_path cfg r st).count ∧
        ∃ ys, (write_module_path cfg r st).buf = st.buf ++ ys) := by
  by_cases h : cfg.module_path
  · cases hm : r.module_path with
    | none => left; simp [write_module_path, h, hm]
    | some mp =>
      right
      rcases write_header_value_shape st mp.data with ⟨hc, ys, hb⟩
      refine ⟨?_, ys, ?_⟩
      · simp only [write_module_path, if_pos h, hm]
        omega
      · simp only [write_module_path, if_pos h, hm]
        exact hb
  · left
    simp [write_module_path, h]

/-- The header contribution to the buffer is either nothing at all or a
block ending in the space after the closing bracket. -/
theorem write_header_buf (cfg : FmtConfig) (r : LogRecord) (st : FmtState) :
    (write_header cfg r st).buf = st.buf ∨
      ∃ ys, (write_header cfg r st).buf = st.buf ++ ys ++ [' '] := by
  have h0 : ({ st with count := 0 } : FmtState).buf = st.buf := rfl
  have hfields := shape_trans
    (shape_trans (write_timestamp_shape cfg { st with count := 0 })
      (write_level_shape cfg r (write_timestamp cfg { st with count := 0 })))
    (write_module_path_shape cfg r (write_level cfg r
      (write_timestamp cfg { st with count := 0 })))
  rw [write_header]
  rcases hfields with heq | ⟨hc, ys, hb⟩
  · rw [heq]
    left
    simp [finish_header]
  · right
    refine ⟨ys ++ [']'], ?_⟩
    rw [finish_header, if_pos (by omega), hb, h0]
    simp

theorem writeChunksRest_last (cfg : FmtConfig) (r : LogRecord) (ic : Option Nat)
    (cs : List (List Char)) (c : List Char) :
    ∀ st : FmtState, ∃ ys, (writeChunksRest cfg r ic st (cs ++ [c])).buf = ys ++ c := by
  induction cs with
  | nil =>
    intro st
    exact ⟨_, rfl⟩
  | cons c1 cs ih =>
    intro st
    exact ih _

theorem splitChar_last_piece {sep : Char} (l : List Char) (c : Char) (hc : ¬c = sep) :
    ∃ cs z, splitChar sep (l ++ [c]) = cs ++ [z ++ [c]] := by
  induction l with
  | nil => exact ⟨[], [], by simp [splitChar, hc, consHead]⟩
  | cons a l ih =>
    rcases ih with ⟨cs, z, h⟩
    by_cases ha : a = sep
    · exact ⟨[] :: cs, z, by simp [splitChar, ha, h]⟩
    · have hstep : splitChar sep ((a :: l) ++ [c]) =
          consHead a (splitChar sep (l ++ [c])) := by
        simp [splitChar, ha]
      cases cs with
      | nil =>
        refine ⟨[], a :: z, ?_⟩
        rw [hstep, h]
        simp [consHead]
      | cons p ps =>
        refine ⟨(a :: p) :: ps, z, ?_⟩
        rw [hstep, h]
        simp [consHead]

/-- After the chunk loop, a message that does not end in a newline leaves
a buffer with no trailing newline (whatever the line prefixes insert). -/
theorem chunked_buf_trailing (cfg : FmtConfig) (r : LogRecord) (ic : Option Nat)
    (st : FmtState) (a : List Char)
    (hst : trailingNewlines st.buf = 0)
    (ha : a.getLast? ≠ some '\n') :
    trailingNewlines (writeChunks cfg r ic st (splitChar '\n' a)).buf = 0 := by
  rcases List.eq_nil_or_concat a with rfl | ⟨l, c, rfl⟩
  · simpa [splitChar, writeChunks] using hst
  · have hc : ¬c = '\n' := by
      intro hcc
      exact ha (by simp [List.concat_eq_append, hcc])
    rw [List.concat_eq_append]
    rcases splitChar_last_piece l c hc with ⟨cs, z, hsp⟩
    rw [hsp]
    cases cs with
    | nil =>
      simp only [List.nil_append, writeChunks, writeChunksRest]
      rw [show st.buf ++ (z ++ [c]) = (st.buf ++ z) ++ [c] by simp]
      exact trailingNewlines_concat_other _ c hc
    | cons c0 cs' =>
      simp only [List.cons_append, writeChunks]
      rcases writeChunksRest_last cfg r ic cs' (z ++ [c])
          { st with buf := st.buf ++ c0 } with ⟨ys, hb⟩
      rw [hb, show ys ++ (z ++ [c]) = (ys ++ z) ++ [c] by simp]
      exact trailingNewlines_concat_other _ c hc

/-- C8 (amended): for every configuration and indent strategy, a record
whose message does not itself end in a newline is rendered with exactly
one trailing newline. -/
theorem write_exactly_one_trailing_newline (cfg : FmtConfig) (r : LogRecord)
    (h : r.args.data.getLast? ≠ some '\n') :
    trailingNewlines (writeRecord cfg r) = 1 := by
  have hhdr : trailingNewlines (write_header cfg r ⟨[], 0⟩).buf = 0 := by
    rcases write_header_buf cfg r ⟨[], 0⟩ with hb | ⟨ys, hb⟩
    · rw [hb]
      rfl
    · rw [hb]
      exact trailingNewlines_concat_other _ ' ' (by decide)
  rcases hi : cfg.indent with n | _ | _ | _
  · simp only [writeRecord, write_args, hi]
    rw [trailingNewlines_concat_newline,
      chunked_buf_trailing cfg r _ _ r.args.data hhdr h]
  · simp only [writeRecord, write_args, hi]
    rw [trailingNewlines_concat_newline,
      chunked_buf_trailing cfg r _ _ r.args.data hhdr h]
  · simp only [writeRecord, write_args, hi]
    rw [trailingNewlines_concat_newline,
      chunked_buf_trailing cfg r _ _ r.args.data hhdr h]
  · simp only [writeRecord, write_args, hi]
    rcases List.eq_nil_or_concat r.args.data with ha | ⟨l, c, ha⟩
    · rw [ha]
      simp only [List.nil_append, List.append_nil]
      rw [trailingNewlines_concat_newline, hhdr]
    · have hc : ¬c = '\n' := by
        intro hcc
        rw [ha, List.concat_eq_append] at h
        exact h (by simp [hcc])
      rw [ha, List.concat_eq_append,
        show (write_header cfg r ⟨[], 0⟩).buf ++ (l ++ [c]) ++ ['\n'] =
          (((write_header cfg r ⟨[], 0⟩).buf ++ l) ++ [c]) ++ ['\n'] by simp,
        trailingNewlines_concat_newline,
        trailingNewlines_concat_other _ c hc]

theorem write_exactly_one_trailing_newline_witness :
    ("log\nmessage".data.getLast? ≠ some '\n') ∧
    trailingNewlines (writeRecord
      ⟨false, true, true, false, Indent.auto, [], []⟩
      ⟨Level.info, some "test::path", "log\nmessage"⟩) = 1 :=
  ⟨by decide,
    write_exactly_one_trailing_newline
      ⟨false, true, true, false, Indent.auto, [], []⟩
      ⟨Level.info, some "test::path", "log\nmessage"⟩ (by decide)⟩

/-- C8 counterexample: with strategy `None` and a message that itself
ends in a newline, the rendered record ends in two newlines, not one:
`writeln!` appends its own newline unconditionally. -/
theorem write_trailing_newline_counterexample :
    trailingNewlines (writeRecord
      ⟨false, false, false, false, Indent.none, [], []⟩
      ⟨Level.info, none, "x\n"⟩) = 2 := by
  decide

theorem splitChar_append_sep {sep : Char} {xs : List Char} (ys : List Char)
    (h : sep ∉ xs) :
    splitChar sep (xs ++ sep :: ys) = xs :: splitChar sep ys := by
  induction xs with
  | nil => simp [splitChar]
  | cons c xs ih =>
    have hc : ¬c = sep := fun hcc => h (hcc ▸ List.mem_cons_self c xs)
    rw [List.cons_append, splitChar, if_neg hc,
      ih (fun hm => h (List.mem_cons_of_mem c hm))]
    simp [consHead]

/-- The rendering of the continuation lines under a fixed indent count:
each one behind a newline, `pad` spaces, the `|` glyph and a space. -/
def contLines (pad : Nat) : List (List Char) → List Char
  | [] => []
  | c :: cs => ('\n' :: List.replicate pad ' ') ++ ['|', ' '] ++ c ++ contLines pad cs

/-- The rendering of a whole chunk list under a fixed indent count: the
first chunk verbatim, the rest as continuation lines. -/
def autoJoin (pad : Nat) : List (List Char) → List Char
  | [] => []
  | c :: cs => c ++ contLines pad cs

theorem writeChunksRest_some_buf (cfg : FmtConfig) (r : LogRecord) (pad : Nat)
    (cs : List (List Char)) :
    ∀ st : FmtState,
      (writeChunksRest cfg r (some pad) st cs).buf = st.buf ++ contLines pad cs := by
  induction cs with
  | nil =>
    intro st
    simp [writeChunksRest, contLines]
  | cons c cs ih =>
    intro st
    simp only [writeChunksRest, writeLinePrefix]
    rw [ih]
    simp [contLines, List.append_assoc]

theorem writeChunks_some_buf (cfg : FmtConfig) (r : LogRecord) (pad : Nat)
    (chunks : List (List Char)) (st : FmtState) :
    (writeChunks cfg r (some pad) st chunks).buf = st.buf ++ autoJoin pad chunks := by
  cases chunks with
  | nil => simp [writeChunks, autoJoin]
  | cons c cs =>
    simp only [writeChunks]
    rw [writeChunksRest_some_buf]
    simp [autoJoin, List.append_assoc]

/-- C7: under the `Auto` strategy every record renders as the header
followed by the message's newline-separated lines, each continuation
line prefixed by `pad` spaces, `|` and a space, then one final newline —
where `pad` is the source's `if count < 2 then 0 else count - 2`, equal
to `max(0, w − 2)` over the integers for the accumulated header width
`w`.  In the scenario with timestamp disabled, level and module path
enabled, a two-line message renders as
`"[<LEVEL>  <module>] line1\n<pad> | line2\n"` with `w = 9 + |module|`
and pad `w - 2`. -/
theorem write_indent_auto_aligns (cfg : FmtConfig) (r : LogRecord)
    (lvl : Level) (mp l1 l2 : String)
    (hcfg : cfg.indent = Indent.auto)
    (h1 : '\n' ∉ l1.data) (h2 : '\n' ∉ l2.data) :
    (writeRecord cfg r =
      (write_header cfg r ⟨[], 0⟩).buf ++
        autoJoin
          (if (write_header cfg r ⟨[], 0⟩).count < 2 then 0
            else (write_header cfg r ⟨[], 0⟩).count - 2)
          (splitChar '\n' r.args.data) ++ ['\n']) ∧
    (((if (write_header cfg r ⟨[], 0⟩).count < 2 then 0
        else (write_header cfg r ⟨[], 0⟩).count - 2 : Nat) : ℤ) =
      max 0 (((write_header cfg r ⟨[], 0⟩).count : ℤ) - 2)) ∧
    (write_header ⟨false, true, true, false, Indent.auto, [], []⟩
        ⟨lvl, some mp, l1 ++ "\n" ++ l2⟩ ⟨[], 0⟩).count = 9 + mp.data.length ∧
    7 + mp.data.length =
      (write_header ⟨false, true, true, false, Indent.auto, [], []⟩
        ⟨lvl, some mp, l1 ++ "\n" ++ l2⟩ ⟨[], 0⟩).count - 2 ∧
    writeRecord ⟨false, true, true, false, Indent.auto, [], []⟩
        ⟨lvl, some mp, l1 ++ "\n" ++ l2⟩ =
      '[' :: levelPad5 lvl ++ ' ' :: mp.data ++ ']' :: ' ' :: l1.data ++
        '\n' :: List.replicate (7 + mp.data.length) ' ' ++ '|' :: ' ' :: l2.data ++
          ['\n'] := by
  have hhdr : write_header ⟨false, true, true, false, Indent.auto, [], []⟩
        ⟨lvl, some mp, l1 ++ "\n" ++ l2⟩ ⟨[], 0⟩ =
      ⟨'[' :: levelPad5 lvl ++ ' ' :: mp.data ++ [']', ' '],
        7 + mp.data.length + 2⟩ := by
    simp only [write_header, write_timestamp, write_level, write_module_path,
      write_header_value, finish_header]
    norm_num
  refine ⟨?_, ?_, ?_, ?_, ?_⟩
  · simp only [writeRecord, write_args, hcfg]
    rw [writeChunks_some_buf]
  · by_cases hw : (write_header cfg r ⟨[], 0⟩).count < 2
    · rw [if_pos hw, max_eq_left (by omega)]
      omega
    · rw [if_neg hw, max_eq_right (by omega)]
      omega
  · rw [hhdr]
    show 7 + mp.data.length + 2 = 9 + mp.data.length
    omega
  · rw [hhdr]
    show 7 + mp.data.length = 7 + mp.data.length + 2 - 2
    omega
  · have hargs : (l1 ++ "\n" ++ l2).data = l1.data ++ '\n' :: l2.data := by
      simp [String.data_append, List.append_assoc]
    have hsplit : splitChar '\n' ((l1 ++ "\n" ++ l2).data) = [l1.data, l2.data] := by
      rw [hargs, splitChar_append_sep l2.data h1, splitChar_of_not_mem h2]
    rw [writeRecord, hhdr]
    simp only [write_args, hsplit, writeChunks, writeChunksRest, writeLinePrefix]
    simp only [List.append_assoc, List.cons_append, List.nil_append]
    norm_num

theorem write_indent_auto_aligns_witness :
    ((⟨false, false, false, false, Indent.auto, [], []⟩ : FmtConfig).indent =
        Indent.auto ∧
      '\n' ∉ "log".data ∧ '\n' ∉ "message".data) ∧
    ((writeRecord ⟨false, false, false, false, Indent.auto, [], []⟩
        ⟨Level.debug, none, "a\nb\nc"⟩ =
      (write_header ⟨false, false, false, false, Indent.auto, [], []⟩
          ⟨Level.debug, none, "a\nb\nc"⟩ ⟨[], 0⟩).buf ++
        autoJoin
          (if (write_header ⟨false, false, false, false, Indent.auto, [], []⟩
                ⟨Level.debug, none, "a\nb\nc"⟩ ⟨[], 0⟩).count < 2 then 0
            else (write_header ⟨false, false, false, false, Indent.auto, [], []⟩
                ⟨Level.debug, none, "a\nb\nc"⟩ ⟨[], 0⟩).count - 2)
          (splitChar '\n' (⟨Level.debug, none, "a\nb\nc"⟩ : LogRecord).args.data) ++
          ['\n']) ∧
      (((if (write_header ⟨false, false, false, false, Indent.auto, [], []⟩
              ⟨Level.debug, none, "a\nb\nc"⟩ ⟨[], 0⟩).count < 2 then 0
          else (write_header ⟨false, false, false, false, Indent.auto, [], []⟩
              ⟨Level.debug, none, "a\nb\nc"⟩ ⟨[], 0⟩).count - 2 : Nat) : ℤ) =
        max 0
          (((write_header ⟨false, false, false, false, Indent.auto, [], []⟩
              ⟨Level.debug, none, "a\nb\nc"⟩ ⟨[], 0⟩).count : ℤ) - 2)) ∧
      (write_header ⟨false, true, true, false, Indent.auto, [], []⟩
          ⟨Level.info, some "test::path", "log" ++ "\n" ++ "message"⟩ ⟨[], 0⟩).count =
        9 + "test::path".data.length ∧
      7 + "test::path".data.length =
        (write_header ⟨false, true, true, false, Indent.auto, [], []⟩
          ⟨Level.info, some "test::path", "log" ++ "\n" ++ "message"⟩ ⟨[], 0⟩).count - 2 ∧
      writeRecord ⟨false, true, true, false, Indent.auto, [], []⟩
          ⟨Level.info, some "test::path", "log" ++ "\n" ++ "message"⟩ =
        '[' :: levelPad5 Level.info ++ ' ' :: "test::path".data ++ ']' :: ' ' ::
          "log".data ++ '\n' :: List.replicate (7 + "test::path".data.length) ' ' ++
            '|' :: ' ' :: "message".data ++ ['\n']) :=
  ⟨⟨by decide, by decide, by decide⟩,
    write_indent_auto_aligns ⟨false, false, false, false, Indent.auto, [], []⟩
      ⟨Level.debug, none, "a\nb\nc"⟩ Level.info "test::path" "log" "message"
      (by decide) (by decide) (by decide)⟩

/- ### Styled writing (`src/src/fmt.rs`, `StyledValue::write_fmt`) -/

/-- The three buffer operations a styled write can attempt. -/
inductive StyleStep where
  | setColor
  | content
  | reset
deriving DecidableEq, Repr

/-- `StyledValue::write_fmt` (`src/src/fmt.rs`, lines 318-336): the
sequence of operations attempted on the shared buffer and the overall
result.  The three Booleans are oracles for whether the underlying
terminal operations (`set_color`, the format closure `f`, `reset`)
succeed — the terminal itself is an external collaborator.  When styling
is disabled only `f` runs; otherwise `set_color` runs first (`?` aborts
on its failure), then `f`, then `reset` unconditionally, and the result
is `write.and(reset)`. -/
def styledWriteFmt (writeStyle setColorOk contentOk resetOk : Bool) :
    List StyleStep × Bool :=
  if !writeStyle then
    ([StyleStep.content], contentOk)
  else if !setColorOk then
    ([StyleStep.setColor], false)
  else
    ([StyleStep.setColor, StyleStep.content, StyleStep.reset],
      contentOk && resetOk)

/-- C9: with styling disabled the bytes are written with no set-color and
no reset; with styling enabled the reset is attempted whenever set-color
succeeded — also when the content write failed — and the operation
succeeds exactly when set-color, content write and reset all succeed. -/
theorem styled_write_reset_discipline (s w r : Bool) :
    (styledWriteFmt false s w r = ([StyleStep.content], w)) ∧
    (StyleStep.setColor ∉ (styledWriteFmt false s w r).1 ∧
      StyleStep.reset ∉ (styledWriteFmt false s w r).1) ∧
    (s = true → StyleStep.reset ∈ (styledWriteFmt true s w r).1) ∧
    ((styledWriteFmt true s w r).2 = true ↔ (s = true ∧ w = true ∧ r = true)) := by
  cases s <;> cases w <;> cases r <;> decide

theorem styled_write_reset_discipline_witness :
    StyleStep.reset ∈ (styledWriteFmt true true false true).1 :=
  (styled_write_reset_discipline true false true).2.2.1 rfl

end EnvLogger
